import Mathlib

/-!
# Verification of the VaR calculator's statistical engine

Shallow embedding of the statistical core of the VaR calculator:

* the Monte-Carlo worker (`src/unnamed/part_001`): `mean`, `std`, the Lanczos
  `lgamma`, the Student-t log-likelihood and grid MLE `fitTDfMLE`, the Moro
  inverse-normal approximation `zFromConf`, the empirical `quantile`, and the
  `onmessage` dispatcher for the `mcSingle` task (methods `normal`, `t_mc`,
  `bootstrap`);
* the in-app closed-form path (`src/src/App.jsx`): `latestSigmaRolling`,
  `normalVarSingle`, the Pearson correlation entries of `corrMatrix` and the
  portfolio-variance double sum of `normalVarPortfolio`.

Modelling conventions.  JavaScript numbers are modelled as real numbers; the
floating-point values `NaN`/`undefined` are modelled by `Option` (a field that
the worker posts as `NaN` becomes `none`).  `Math.random()`, `randn()` and
`randStdT(df)` are modelled as oracle streams of realized draws (`unif`,
`gauss`, `tdraw`): the claims under verification quantify over all draw
sequences, so the internal Box-Muller / Marsaglia-Tsang arithmetic of the
generators is irrelevant and is not embedded.  Array reads `a[i]` out of
bounds (JS `undefined`) are modelled as the junk value `0` by `jsIdx`; the
claims only exercise in-range reads.
-/

namespace VarCalc

noncomputable section

open Real

/-- JS array read `a[i]` for an integer index: the element when `0 ≤ i < a.length`,
junk `0` (JS `undefined`) otherwise. -/
def jsIdx (a : List ℝ) (i : ℤ) : ℝ :=
  if h : 0 ≤ i ∧ i.toNat < a.length then a.get ⟨i.toNat, h.2⟩ else 0

/-- JS `x|0`: truncation toward zero (the int32 wrap-around never occurs for the
index magnitudes the worker produces). -/
def jsTrunc (x : ℝ) : ℤ :=
  if 0 ≤ x then ⌊x⌋ else -⌊-x⌋

/-- Worker `mean(arr)`: `s/arr.length` for the running sum `s`. -/
def mean (arr : List ℝ) : ℝ := arr.sum / arr.length

/-- The sum `s` accumulated by worker `std`: `for v of arr { d=v-m; s+=d*d }`. -/
def sqDevSum (arr : List ℝ) : ℝ :=
  (arr.map (fun v => (v - mean arr) * (v - mean arr))).sum

/-- Worker `std(arr)`: `sqrt(s/(arr.length-1))` (Bessel-corrected sample
standard deviation). -/
def std (arr : List ℝ) : ℝ :=
  Real.sqrt (sqDevSum arr / ((arr.length : ℝ) - 1))

/-- The Lanczos series `x0` of the worker's `lgamma`, evaluated after the
`z -= 1` decrement: argument `z1` is the decremented value. -/
def lanczosSum (z1 : ℝ) : ℝ :=
  0.99999999999980993 + 676.5203681218851 / (z1 + 1) + -1259.1392167224028 / (z1 + 2) +
    771.32342877765313 / (z1 + 3) + -176.61502916214059 / (z1 + 4) +
    12.507343278686905 / (z1 + 5) + -0.13857109526572012 / (z1 + 6) +
    9.9843695780195716e-6 / (z1 + 7) + 1.5056327351493116e-7 / (z1 + 8)

/-- The `z ≥ 0.5` branch of the worker's `lgamma` (the code after `z -= 1`,
with `g = 7`, `t = z + g + 0.5`). -/
def lgammaMain (z : ℝ) : ℝ :=
  0.5 * Real.log (2 * π) + (z - 1 + 0.5) * Real.log (z - 1 + 7.5) - (z - 1 + 7.5) +
    Real.log (lanczosSum (z - 1))

/-- Worker `lgamma(z)` (Lanczos approximation with reflection for `z < 0.5`).
The recursive call `lgamma(1-z)` in the reflection branch has `1-z > 0.5`, so
it lands in the main branch; the recursion is unfolded accordingly. -/
def lgamma (z : ℝ) : ℝ :=
  if z < 0.5 then Real.log π - Real.log (Real.sin (π * z)) - lgammaMain (1 - z)
  else lgammaMain z

/-- Worker `studentTLoglike(x, df)`: sum over the sample of
`a - (df+1)/2 * log(1 + v²/df)` with `a = lgamma((df+1)/2) - lgamma(df/2)
- 0.5*log(df*π)`. -/
def studentTLoglike (x : List ℝ) (df : ℝ) : ℝ :=
  (x.map (fun v =>
      (lgamma ((df + 1) / 2) - lgamma (df / 2) - 0.5 * Real.log (df * π)) -
        (df + 1) / 2 * Real.log (1 + v * v / df))).sum

/-- The `(bestDf, bestLL)` scan of `fitTDfMLE`'s grid loop: fold over the
candidate `df` values, updating the state on strict improvement
`ll > bestLL`. -/
def bestScan (L : ℕ → ℝ) (st : ℕ × ℝ) (dfs : List ℕ) : ℕ × ℝ :=
  dfs.foldl (fun st df => if st.2 < L df then (df, L df) else st) st

/-- Worker `fitTDfMLE(r, dfMin, dfMax)`: grid-search MLE for the Student-t
degrees of freedom.  Returns the fallback `5` when `sigma ≤ 0`; otherwise scans
`df = dfMin..dfMax` over the standardized sample, with initial state
`(dfMin, -1e100)`. -/
def fitTDfMLE (r : List ℝ) (dfMin dfMax : ℕ) : ℕ :=
  if std r ≤ 0 then 5
  else
    (bestScan (fun df => studentTLoglike (r.map (fun v => (v - mean r) / std r)) df)
      ((dfMin, -1e100) : ℕ × ℝ) (List.range' dfMin (dfMax + 1 - dfMin))).1

/-- The central (`|y| < 0.42`) rational part of the Moro approximation, with
`r = y*y` inlined. -/
def moroCentral (y : ℝ) : ℝ :=
  y * (((-25.44106049637 * (y * y) + 41.39119773534) * (y * y) + -18.61500062529) * (y * y) +
      2.50662823884) /
    ((((3.13082909833 * (y * y) + -21.06224101826) * (y * y) + 23.08336743743) * (y * y) +
        -8.47351093090) * (y * y) + 1.0)

/-- The tail polynomial `x = c[0] + Σ_{i=1..8} c[i]·rⁱ` of the Moro
approximation. -/
def moroTailPoly (r : ℝ) : ℝ :=
  0.3374754822726147 + 0.9761690190917186 * r + 0.1607979714918209 * r ^ 2 +
    0.0276438810333863 * r ^ 3 + 0.0038405729373609 * r ^ 4 + 0.0003951896511919 * r ^ 5 +
    0.0000321767881768 * r ^ 6 + 0.0000002888167364 * r ^ 7 + 0.0000003960315187 * r ^ 8

/-- Worker / App `zFromConf(conf)`: hardcoded `1.645` / `2.33` near `0.95` /
`0.99`, otherwise the Moro approximation (rational part for `|conf-0.5| < 0.42`,
log-log polynomial tail otherwise).  In the tail the source sets
`r0 = y ≤ 0 ? conf : 1-conf` and returns `y > 0 ? x : -x`; since `y ≤ 0` and
`y > 0` are complementary the two selections collapse into the two tail
branches below. -/
def zFromConf (conf : ℝ) : ℝ :=
  if |conf - 0.95| < 1e-6 then 1.645
  else if |conf - 0.99| < 1e-6 then 2.33
  else if |conf - 0.5| < 0.42 then moroCentral (conf - 0.5)
  else if conf - 0.5 ≤ 0 then -(moroTailPoly (Real.log (-Real.log conf)))
  else moroTailPoly (Real.log (-Real.log (1 - conf)))

/-- The interpolation step of worker `quantile`, applied to the already-sorted
array `a`: `pos = (n-1)*q`, `base = ⌊pos⌋`, `rest = pos - base`, linear
interpolation when `a[base+1]` is defined (`0 ≤ base+1 < n`), else `a[base]`. -/
def interpAt (a : List ℝ) (q : ℝ) : ℝ :=
  if 0 ≤ ⌊((a.length : ℝ) - 1) * q⌋ + 1 ∧ ⌊((a.length : ℝ) - 1) * q⌋ + 1 < (a.length : ℤ) then
    jsIdx a ⌊((a.length : ℝ) - 1) * q⌋ +
      (((a.length : ℝ) - 1) * q - (⌊((a.length : ℝ) - 1) * q⌋ : ℝ)) *
        (jsIdx a (⌊((a.length : ℝ) - 1) * q⌋ + 1) - jsIdx a ⌊((a.length : ℝ) - 1) * q⌋)
  else jsIdx a ⌊((a.length : ℝ) - 1) * q⌋

/-- Worker `quantile(arr, q)`: sort ascending (`[...arr].sort((x,y)=>x-y)`),
then linear interpolation at the fractional rank `(n-1)*q`. -/
def quantile (arr : List ℝ) (q : ℝ) : ℝ :=
  interpAt (arr.mergeSort (fun x y => decide (x ≤ y))) q

/-- The `payload` of an `mcSingle` worker message:
`{ r, conf, T, sims, method, dfMax }`. -/
structure McPayload where
  r : List ℝ
  conf : ℝ
  T : ℕ
  sims : ℕ
  method : String
  dfMax : ℕ

/-- The worker's `postMessage` payload: fields the code does not post are
`none`, and a field posted as `NaN` is also `none` (`varValue` in the
insufficient-data guard). -/
structure McResponse where
  ok : Bool
  varValue : Option ℝ
  mu : Option ℝ := none
  sigma : Option ℝ := none
  nu : Option ℕ := none
  z : Option ℝ := none

/-- The simulated sample `Rs` built by the `mcSingle` branches: `sims` trials,
each the sum of `T` daily draws.  `gauss`/`tdraw`/`unif` are the oracle streams
of realized `randn()` / `randStdT(dfHat)` / `Math.random()` values, consumed at
index `k*T + t` in trial `k`, day `t`. -/
def mcReturns (p : McPayload) (gauss tdraw unif : ℕ → ℝ) : List ℝ :=
  if p.method = "normal" then
    (List.range p.sims).map (fun k =>
      ((List.range p.T).map (fun t => mean p.r + std p.r * gauss (k * p.T + t))).sum)
  else if p.method = "t_mc" then
    let dfHat := fitTDfMLE p.r 3 p.dfMax
    let scale := if 2 < (dfHat : ℝ) then std p.r * Real.sqrt (((dfHat : ℝ) - 2) / dfHat)
      else std p.r
    (List.range p.sims).map (fun k =>
      ((List.range p.T).map (fun t => mean p.r + scale * tdraw (k * p.T + t))).sum)
  else
    (List.range p.sims).map (fun k =>
      ((List.range p.T).map (fun t =>
        jsIdx p.r (jsTrunc (unif (k * p.T + t) * (p.r.length : ℝ))))).sum)

/-- The worker's `onmessage` handler for `task = "mcSingle"`: the
insufficient-data guard posts `{ok, var: NaN}`; the three method branches post
their responses; an unrecognized method posts nothing (`none`). -/
def mcSingle (p : McPayload) (gauss tdraw unif : ℕ → ℝ) : Option McResponse :=
  if p.r.length < 2 then some { ok := true, varValue := none }
  else if p.method = "normal" then
    some { ok := true,
           varValue := some (-(quantile (mcReturns p gauss tdraw unif) (1 - p.conf))),
           mu := some (mean p.r), sigma := some (std p.r) }
  else if p.method = "t_mc" then
    some { ok := true,
           varValue := some (-(quantile (mcReturns p gauss tdraw unif) (1 - p.conf))),
           mu := some (mean p.r), sigma := some (std p.r),
           nu := some (fitTDfMLE p.r 3 p.dfMax), z := some (zFromConf p.conf) }
  else if p.method = "bootstrap" then
    some { ok := true,
           varValue := some (-(quantile (mcReturns p gauss tdraw unif) (1 - p.conf))) }
  else none

/-- The `sub` array of App `latestSigmaRolling`: the whole history when it is
shorter than the window, else the trailing `window` elements
(`slice(-window)` = `drop (len - window)` for `window ≥ 1`). -/
def subSample (hist : List ℝ) (window : ℕ) : List ℝ :=
  if hist.length < window then hist else hist.drop (hist.length - window)

/-- App `latestSigmaRolling(logRetArr, window)`: filter the non-finite entries
(a non-finite JS number is modelled as `none`), take the trailing `window`
elements, and return their sample standard deviation (the inline loop computes
exactly `sqrt(sqDevSum/(len-1))`); `NaN` (= `none`) when fewer than 2 finite
values remain. -/
def latestSigmaRolling (logRetArr : List (Option ℝ)) (window : ℕ) : Option ℝ :=
  if (logRetArr.filterMap id).length < 2 then none
  else
    some (Real.sqrt (sqDevSum (subSample (logRetArr.filterMap id) window) /
      (((subSample (logRetArr.filterMap id) window).length : ℝ) - 1)))

/-- The record returned by App `normalVarSingle`. -/
structure NormalVarResult where
  varValue : Option ℝ
  sigma : Option ℝ
  z : ℝ

/-- App `normalVarSingle(logRetArr, conf, T, window)`:
`{var: z*sigma*sqrt(T), sigma, z}`, with `var = NaN` when `sigma` is not
finite. -/
def normalVarSingle (logRetArr : List (Option ℝ)) (conf : ℝ) (T : ℕ) (window : ℕ) :
    NormalVarResult :=
  match latestSigmaRolling logRetArr window with
  | none => { varValue := none, sigma := none, z := zFromConf conf }
  | some s =>
      { varValue := some (zFromConf conf * s * Real.sqrt T), sigma := some s,
        z := zFromConf conf }

/-- Column `i` of the aligned return matrix: `rows.map(r => r[ids[i]])`, the
instrument ids being numbered `0..m-1`. -/
def colOf (rows : List (List ℝ)) (i : ℕ) : List ℝ :=
  rows.map (fun row => row.getD i 0)

/-- One entry of App `corrMatrix(rows, ids)`: sample covariance of columns `i`
and `j` (denominator `n-1`) divided by the product of the column sample
standard deviations. -/
def corrEntry (rows : List (List ℝ)) (i j : ℕ) : ℝ :=
  (((List.range rows.length).map (fun k =>
      ((colOf rows i).getD k 0 - mean (colOf rows i)) *
        ((colOf rows j).getD k 0 - mean (colOf rows j)))).sum / ((rows.length : ℝ) - 1)) /
    (std (colOf rows i) * std (colOf rows j))

/-- The portfolio-variance double sum of App `normalVarPortfolio`:
`sigmaP2 += w[i]*w[j]*sigmas[i]*sigmas[j]*corr[i][j]` over `i, j < m`, computed
from the aligned (already filtered) rows. -/
def portfolioSigmaP2 (rows : List (List ℝ)) (w sigmas : List ℝ) (m : ℕ) : ℝ :=
  ((List.range m).map (fun i =>
    ((List.range m).map (fun j =>
      w.getD i 0 * w.getD j 0 * sigmas.getD i 0 * sigmas.getD j 0 * corrEntry rows i j)).sum)).sum

/-- The spec's closed-form test scenario: returns
`[0.01, -0.02, 0.015, -0.01, 0.005]` (all finite). -/
def scenarioReturns : List (Option ℝ) :=
  [some 0.01, some (-0.02), some 0.015, some (-0.01), some 0.005]

/-! ## Helper lemmas -/

theorem jsIdx_eq_zero_of_all_zero {a : List ℝ} (h : ∀ v ∈ a, v = 0) (i : ℤ) :
    jsIdx a i = 0 := by
  unfold jsIdx
  split
  · exact h _ (List.get_mem ..)
  · rfl

theorem quantile_all_zero {arr : List ℝ} (h : ∀ v ∈ arr, v = 0) (q : ℝ) :
    quantile arr q = 0 := by
  have hz : ∀ v ∈ arr.mergeSort (fun x y => decide (x ≤ y)), v = 0 := fun v hv =>
    h v ((List.mergeSort_perm arr _).subset hv)
  unfold quantile interpAt
  simp only [jsIdx_eq_zero_of_all_zero hz]
  split <;> ring

/-! ## C5: degenerate-variance fallback of the t fitter -/

/-- C5: for every sample whose Bessel-corrected sample standard deviation is
`≤ 0` (e.g. a constant series), `fitTDfMLE` skips the grid search and returns
the fixed fallback `ν = 5` (a number, never `NaN`). -/
theorem fitTDfMLE_degenerate_fallback (r : List ℝ) (dfMin dfMax : ℕ) (h : std r ≤ 0) :
    fitTDfMLE r dfMin dfMax = 5 := by
  unfold fitTDfMLE
  rw [if_pos h]

/-- Witness for C5 at the constant series `[1, 1]`. -/
theorem fitTDfMLE_degenerate_fallback_witness :
    std [(1 : ℝ), 1] ≤ 0 ∧ fitTDfMLE [(1 : ℝ), 1] 3 60 = 5 := by
  have h : std [(1 : ℝ), 1] ≤ 0 := by
    unfold std sqDevSum mean
    norm_num
  exact ⟨h, fitTDfMLE_degenerate_fallback _ 3 60 h⟩

/-! ## C10: bootstrap resampling index stays in bounds -/

/-- C10: for every uniform draw `u ∈ [0,1)` and pool length `len ≥ 2` (the
worker's length guard), the bootstrap resampling index `(u*len)|0` lies in
`[0, len-1]`, so the daily draw `r[idx]` reads a defined element of the
pool. -/
theorem bootstrap_index_in_range (u : ℝ) (len : ℕ) (h0 : 0 ≤ u) (h1 : u < 1)
    (hlen : 2 ≤ len) :
    0 ≤ jsTrunc (u * (len : ℝ)) ∧ jsTrunc (u * (len : ℝ)) < (len : ℤ) ∧
      ∀ r : List ℝ, r.length = len → jsIdx r (jsTrunc (u * (len : ℝ))) ∈ r := by
  have hx : 0 ≤ u * (len : ℝ) := by positivity
  have ht : jsTrunc (u * (len : ℝ)) = ⌊u * (len : ℝ)⌋ := if_pos hx
  have h0' : 0 ≤ ⌊u * (len : ℝ)⌋ := Int.floor_nonneg.mpr hx
  have hlt : ⌊u * (len : ℝ)⌋ < (len : ℤ) := by
    rw [Int.floor_lt]
    push_cast
    calc u * (len : ℝ) < 1 * (len : ℝ) := by
          apply mul_lt_mul_of_pos_right h1
          have : (2 : ℝ) ≤ (len : ℝ) := by exact_mod_cast hlen
          linarith
      _ = (len : ℝ) := one_mul _
  refine ⟨ht ▸ h0', ht ▸ hlt, fun r hr => ?_⟩
  have hcond : 0 ≤ jsTrunc (u * (len : ℝ)) ∧
      (jsTrunc (u * (len : ℝ))).toNat < r.length := by
    refine ⟨ht ▸ h0', ?_⟩
    rw [hr, ht]
    exact (Int.toNat_lt h0').mpr hlt
  unfold jsIdx
  rw [dif_pos hcond]
  exact List.get_mem ..

/-- Witness for C10 at `u = 1/2`, pool `[5, 6]`. -/
theorem bootstrap_index_in_range_witness :
    (0 : ℝ) ≤ 1 / 2 ∧ (1 / 2 : ℝ) < 1 ∧
      jsIdx [(5 : ℝ), 6] (jsTrunc ((1 / 2) * ((2 : ℕ) : ℝ))) ∈ [(5 : ℝ), 6] :=
  ⟨by norm_num, by norm_num,
    (bootstrap_index_in_range (1 / 2) 2 (by norm_num) (by norm_num) (by norm_num)).2.2 _ rfl⟩

/-! ## C6: bootstrap on an all-zero pool is deterministically 0 -/

/-- C6: a bootstrap Monte-Carlo request whose pool contains only `0.0` (length
`≥ 2`) returns VaR `= 0` for every horizon `≥ 1`, simulation count `≥ 1` and
every sequence of uniform draws. -/
theorem mcSingle_bootstrap_zero_pool (p : McPayload) (gauss tdraw unif : ℕ → ℝ)
    (hm : p.method = "bootstrap") (hz : ∀ v ∈ p.r, v = 0) (hlen : 2 ≤ p.r.length)
    (hT : 1 ≤ p.T) (hs : 1 ≤ p.sims) (hu : ∀ i, 0 ≤ unif i ∧ unif i < 1) :
    ∃ resp, mcSingle p gauss tdraw unif = some resp ∧ resp.varValue = some 0 := by
  have hRs : ∀ v ∈ mcReturns p gauss tdraw unif, v = 0 := by
    intro v hv
    rw [mcReturns, if_neg (by rw [hm]; decide), if_neg (by rw [hm]; decide)] at hv
    obtain ⟨k, _, rfl⟩ := List.mem_map.mp hv
    apply List.sum_eq_zero
    intro x hx
    obtain ⟨t, _, rfl⟩ := List.mem_map.mp hx
    exact jsIdx_eq_zero_of_all_zero hz _
  refine ⟨{ ok := true,
            varValue := some (-(quantile (mcReturns p gauss tdraw unif) (1 - p.conf))) },
          ?_, ?_⟩
  · rw [mcSingle, if_neg (by omega), if_neg (by rw [hm]; decide),
      if_neg (by rw [hm]; decide), if_pos hm]
  · simp only [quantile_all_zero hRs, neg_zero]

/-- Witness for C6: pool `[0, 0]`, horizon 1, one trial, uniform stream `1/2`. -/
theorem mcSingle_bootstrap_zero_pool_witness :
    ∃ resp,
      mcSingle ⟨[0, 0], 1 / 2, 1, 1, "bootstrap", 60⟩ (fun _ => 0) (fun _ => 0)
          (fun _ => 1 / 2) = some resp ∧ resp.varValue = some 0 :=
  mcSingle_bootstrap_zero_pool _ _ _ _ rfl (by intro v hv; simpa using hv)
    (by norm_num) le_rfl le_rfl (fun i => ⟨by norm_num, by norm_num⟩)

/-! ## C8: rolling sigma degrades to the full-sample estimate -/

/-- C8: when the list of finite returns is shorter than the window (and has at
least 2 elements), `latestSigmaRolling` filters the non-finite entries and
returns exactly the Bessel-corrected sample standard deviation (`std`) of all
remaining finite values. -/
theorem latestSigmaRolling_short_window (arr : List (Option ℝ)) (w : ℕ)
    (h2 : 2 ≤ (arr.filterMap id).length) (hw : (arr.filterMap id).length < w) :
    latestSigmaRolling arr w = some (std (arr.filterMap id)) := by
  unfold latestSigmaRolling std subSample
  rw [if_neg (by omega), if_pos hw]

/-- Witness for C8 at `[some 1, some 2, none]` with window 3 (two finite
values, shorter than the window). -/
theorem latestSigmaRolling_short_window_witness :
    2 ≤ (([some 1, some 2, none] : List (Option ℝ)).filterMap id).length ∧
      latestSigmaRolling [some 1, some 2, none] 3 =
        some (std (([some 1, some 2, none] : List (Option ℝ)).filterMap id)) := by
  have h2 : 2 ≤ (([some 1, some 2, none] : List (Option ℝ)).filterMap id).length := by
    simp
  exact ⟨h2, latestSigmaRolling_short_window _ 3 h2 (by simp)⟩

/-! ## C2: closed-form Normal-parametric single-instrument VaR -/

theorem latestSigmaRolling_scenario :
    latestSigmaRolling scenarioReturns 5 = some (Real.sqrt (17 / 80000)) := by
  have hfm : scenarioReturns.filterMap id = [0.01, -0.02, 0.015, -0.01, 0.005] := by
    simp [scenarioReturns]
  have hsub : subSample (scenarioReturns.filterMap id) 5 =
      [(0.01 : ℝ), -0.02, 0.015, -0.01, 0.005] := by
    rw [subSample, hfm]
    norm_num
  unfold latestSigmaRolling
  rw [if_neg (by rw [hfm]; norm_num), hsub]
  congr 1
  have hm : mean [(0.01 : ℝ), -0.02, 0.015, -0.01, 0.005] = 0 := by
    unfold mean
    norm_num
  unfold sqDevSum
  rw [hm]
  norm_num

/-- C2 counterexample: on the spec's scenario the computed VaR is
`1.645·√0.0002125 ≈ 0.02398`, which differs from the spec's claimed value
`0.02422` by more than `2·10⁻⁴`. -/
theorem normalVarSingle_scenario_counterexample :
    ∃ v, (normalVarSingle scenarioReturns 0.95 1 5).varValue = some v ∧
      1 / 5000 < |v - 0.02422| := by
  have hz : zFromConf 0.95 = 1.645 := by
    unfold zFromConf
    rw [if_pos (by norm_num)]
  refine ⟨zFromConf 0.95 * Real.sqrt (17 / 80000) * Real.sqrt ((1 : ℕ) : ℝ), ?_, ?_⟩
  · unfold normalVarSingle
    rw [latestSigmaRolling_scenario]
  · have hs : Real.sqrt (17 / 80000) < 14585 / 10 ^ 6 := by
      rw [Real.sqrt_lt' (by norm_num)]
      norm_num
    have hs0 : 0 ≤ Real.sqrt (17 / 80000) := Real.sqrt_nonneg _
    rw [hz]
    have h1 : Real.sqrt ((1 : ℕ) : ℝ) = 1 := by
      rw [Nat.cast_one, Real.sqrt_one]
    rw [h1, mul_one]
    rw [abs_of_neg (by nlinarith)]
    nlinarith

/-- C2 (amended): the closed-form Normal-parametric VaR is
`zFromConf(c) · rollingSigma(series, w) · √T` (mean omitted) whenever the
rolling sigma is defined; on the spec's scenario (window 5, confidence 0.95,
horizon 1) it equals `1.645·√0.0002125 ≈ 0.02398` (not the spec's `0.02422`). -/
theorem normalVarSingle_closed_form :
    (∀ (arr : List (Option ℝ)) (conf : ℝ) (T w : ℕ) (s : ℝ),
        latestSigmaRolling arr w = some s →
        (normalVarSingle arr conf T w).varValue =
          some (zFromConf conf * s * Real.sqrt (T : ℝ))) ∧
    ∃ v, (normalVarSingle scenarioReturns 0.95 1 5).varValue = some v ∧
      v = 1.645 * Real.sqrt (17 / 80000) ∧ |v - 0.02398| < 1e-4 := by
  constructor
  · intro arr conf T w s h
    unfold normalVarSingle
    rw [h]
  · have hz : zFromConf 0.95 = 1.645 := by
      unfold zFromConf
      rw [if_pos (by norm_num)]
    refine ⟨zFromConf 0.95 * Real.sqrt (17 / 80000) * Real.sqrt ((1 : ℕ) : ℝ), ?_, ?_, ?_⟩
    · unfold normalVarSingle
      rw [latestSigmaRolling_scenario]
    · rw [hz, Nat.cast_one, Real.sqrt_one, mul_one]
    · have hup : Real.sqrt (17 / 80000) < 14585 / 10 ^ 6 := by
        rw [Real.sqrt_lt' (by norm_num)]
        norm_num
      have hlo : (1457 / 100000 : ℝ) < Real.sqrt (17 / 80000) := by
        rw [Real.lt_sqrt (by norm_num)]
        norm_num
      rw [hz, Nat.cast_one, Real.sqrt_one, mul_one, abs_lt]
      constructor <;> nlinarith

/-- Witness for C2 (amended), applying the closed-form equation on the
scenario input. -/
theorem normalVarSingle_closed_form_witness :
    latestSigmaRolling scenarioReturns 5 = some (Real.sqrt (17 / 80000)) ∧
      (normalVarSingle scenarioReturns 0.95 1 5).varValue =
        some (zFromConf 0.95 * Real.sqrt (17 / 80000) * Real.sqrt ((1 : ℕ) : ℝ)) :=
  ⟨latestSigmaRolling_scenario,
    normalVarSingle_closed_form.1 _ _ _ _ _ latestSigmaRolling_scenario⟩

/-! ## C9: single-asset portfolio variance -/

theorem sum_map_range_congr (l : List ℝ) (f : ℝ → ℝ) :
    ((List.range l.length).map (fun k => f (l.getD k 0))).sum = (l.map f).sum := by
  congr 1
  apply List.ext_getElem
  · simp
  · intro i h1 h2
    have h2' : i < l.length := by simpa using h2
    simp [List.getD_eq_getElem _ _ h2', List.getElem?_eq_getElem h2']

theorem sum_map_range_single (f : ℕ → ℝ) (m k : ℕ) (hk : k < m)
    (h0 : ∀ i, i < m → i ≠ k → f i = 0) :
    ((List.range m).map f).sum = f k := by
  induction m with
  | zero => omega
  | succ m ih =>
      rw [List.range_succ, List.map_append, List.sum_append]
      rcases Nat.lt_or_ge k m with hkm | hkm
      · rw [ih hkm (fun i hi hik => h0 i (by omega) hik)]
        have : f m = 0 := h0 m (by omega) (by omega)
        simp [this]
      · have hkm' : k = m := by omega
        subst hkm'
        have : ((List.range k).map f).sum = 0 := by
          apply List.sum_eq_zero
          intro x hx
          obtain ⟨i, hi, rfl⟩ := List.mem_map.mp hx
          exact h0 i (by simp at hi; omega) (by simp at hi; omega)
        simp [this]

theorem corrEntry_diag (rows : List (List ℝ)) (k : ℕ) (hrows : 2 ≤ rows.length)
    (hvar : 0 < sqDevSum (colOf rows k)) :
    corrEntry rows k k = 1 := by
  unfold corrEntry
  have hlen : rows.length = (colOf rows k).length := by
    unfold colOf
    rw [List.length_map]
  rw [hlen, sum_map_range_congr (colOf rows k)
    (fun v => (v - mean (colOf rows k)) * (v - mean (colOf rows k)))]
  have hV : 0 < sqDevSum (colOf rows k) / (((colOf rows k).length : ℝ) - 1) := by
    apply div_pos hvar
    have : (2 : ℝ) ≤ ((colOf rows k).length : ℝ) := by
      rw [← hlen]
      exact_mod_cast hrows
    linarith
  have hstd : std (colOf rows k) * std (colOf rows k) =
      sqDevSum (colOf rows k) / (((colOf rows k).length : ℝ) - 1) := by
    unfold std
    exact Real.mul_self_sqrt hV.le
  rw [hstd]
  exact div_self hV.ne'

/-- C9: when the weight vector is the indicator of asset `k` and the aligned
return matrix has at least 2 rows with positive sample variance in each
column, the portfolio-variance double sum `Σᵢⱼ wᵢwⱼσᵢσⱼρᵢⱼ` collapses to
asset `k`'s own variance `σₖ²` (the correlation diagonal `ρₖₖ` being exactly 1
in exact arithmetic). -/
theorem portfolioSigmaP2_single_asset (rows : List (List ℝ)) (w sigmas : List ℝ)
    (m k : ℕ) (hrows : 2 ≤ rows.length) (hk : k < m) (hwk : w.getD k 0 = 1)
    (hw0 : ∀ i, i < m → i ≠ k → w.getD i 0 = 0)
    (hvar : ∀ j, j < m → 0 < sqDevSum (colOf rows j)) :
    portfolioSigmaP2 rows w sigmas m = (sigmas.getD k 0) ^ 2 := by
  unfold portfolioSigmaP2
  rw [sum_map_range_single _ m k hk]
  · rw [sum_map_range_single _ m k hk]
    · rw [hwk, corrEntry_diag rows k hrows (hvar k hk)]
      ring
    · intro j hj hjk
      rw [hw0 j hj hjk]
      ring
  · intro i hi hik
    apply List.sum_eq_zero
    intro x hx
    obtain ⟨j, _, rfl⟩ := List.mem_map.mp hx
    rw [hw0 i hi hik]
    ring

/-- Witness for C9: two aligned rows, two assets, weight 1 on asset 0. -/
theorem portfolioSigmaP2_single_asset_witness :
    (∀ j, j < 2 → 0 < sqDevSum (colOf [[(1 : ℝ), 0], [2, 3]] j)) ∧
      portfolioSigmaP2 [[(1 : ℝ), 0], [2, 3]] [1, 0] [5, 7] 2 =
        (([5, 7] : List ℝ).getD 0 0) ^ 2 := by
  have hvar : ∀ j, j < 2 → 0 < sqDevSum (colOf [[(1 : ℝ), 0], [2, 3]] j) := by
    intro j hj
    interval_cases j <;> (unfold sqDevSum colOf mean; norm_num)
  refine ⟨hvar, portfolioSigmaP2_single_asset _ _ _ 2 0 (by norm_num) (by norm_num)
    (by norm_num) ?_ hvar⟩
  intro i hi hik
  have : i = 1 := by omega
  subst this
  rfl

/-! ## C3: response fields of the three Monte-Carlo methods -/

/-- C3 counterexample: a `bootstrap` request (with ≥ 2 returns) is answered
with only the VaR value — the fitted `mu` and `sigma` are **not** included in
the response, contradicting the claim that every method's result carries
them. -/
theorem mcSingle_bootstrap_fields_counterexample :
    (mcSingle ⟨[0.01, -0.02], 0.95, 1, 1, "bootstrap", 60⟩ (fun _ => 0) (fun _ => 0)
        (fun _ => 0)).map
      (fun resp => (resp.varValue.isSome, resp.mu, resp.sigma, resp.nu)) =
      some (true, none, none, none) := by
  rw [mcSingle, if_neg (by norm_num), if_neg (by decide), if_neg (by decide),
    if_pos rfl]
  rfl

/-- C3 (amended): with ≥ 2 returns, `normal` and `t_mc` responses carry the
VaR together with the fitted `mu` and `sigma`, with `nu` present exactly for
`t_mc`; a `bootstrap` response carries only the VaR; the literal method string
`"student_t"` is not recognized and produces no response at all. -/
theorem mcSingle_response_fields (p : McPayload) (gauss tdraw unif : ℕ → ℝ)
    (hr : 2 ≤ p.r.length) :
    (p.method = "normal" → ∃ resp, mcSingle p gauss tdraw unif = some resp ∧
        resp.varValue.isSome ∧ resp.mu.isSome ∧ resp.sigma.isSome ∧ resp.nu = none) ∧
    (p.method = "t_mc" → ∃ resp, mcSingle p gauss tdraw unif = some resp ∧
        resp.varValue.isSome ∧ resp.mu.isSome ∧ resp.sigma.isSome ∧ resp.nu.isSome) ∧
    (p.method = "bootstrap" → ∃ resp, mcSingle p gauss tdraw unif = some resp ∧
        resp.varValue.isSome ∧ resp.mu = none ∧ resp.sigma = none ∧ resp.nu = none) ∧
    (p.method = "student_t" → mcSingle p gauss tdraw unif = none) := by
  refine ⟨fun hm => ?_, fun hm => ?_, fun hm => ?_, fun hm => ?_⟩
  · refine ⟨{ ok := true,
              varValue := some (-(quantile (mcReturns p gauss tdraw unif) (1 - p.conf))),
              mu := some (mean p.r), sigma := some (std p.r) }, ?_, rfl, rfl, rfl, rfl⟩
    rw [mcSingle, if_neg (by omega), if_pos hm]
  · refine ⟨{ ok := true,
              varValue := some (-(quantile (mcReturns p gauss tdraw unif) (1 - p.conf))),
              mu := some (mean p.r), sigma := some (std p.r),
              nu := some (fitTDfMLE p.r 3 p.dfMax), z := some (zFromConf p.conf) },
            ?_, rfl, rfl, rfl, rfl⟩
    rw [mcSingle, if_neg (by omega), if_neg (by rw [hm]; decide), if_pos hm]
  · refine ⟨{ ok := true,
              varValue := some (-(quantile (mcReturns p gauss tdraw unif) (1 - p.conf))) },
            ?_, rfl, rfl, rfl, rfl⟩
    rw [mcSingle, if_neg (by omega), if_neg (by rw [hm]; decide),
      if_neg (by rw [hm]; decide), if_pos hm]
  · rw [mcSingle, if_neg (by omega), if_neg (by rw [hm]; decide),
      if_neg (by rw [hm]; decide), if_neg (by rw [hm]; decide)]

/-- Witness for C3 (amended) at a concrete `normal` request. -/
theorem mcSingle_response_fields_witness :
    ∃ resp,
      mcSingle ⟨[0.01, -0.02], 0.95, 1, 1, "normal", 60⟩ (fun _ => 0) (fun _ => 0)
          (fun _ => 0) = some resp ∧
        resp.varValue.isSome ∧ resp.mu.isSome ∧ resp.sigma.isSome ∧ resp.nu = none :=
  (mcSingle_response_fields _ _ _ _ (by norm_num)).1 rfl

/-! ## C1: Monte-Carlo VaR is the negated empirical quantile -/

theorem mergeSort_eq_of_sorted (arr a : List ℝ) (hp : arr.Perm a)
    (hs : a.Sorted (· ≤ ·)) :
    arr.mergeSort (fun x y => decide (x ≤ y)) = a := by
  have hsorted := @List.sorted_mergeSort ℝ (fun x y : ℝ => decide (x ≤ y))
    (fun a b c hab hbc => decide_eq_true
      (le_trans (of_decide_eq_true hab) (of_decide_eq_true hbc)))
    (fun a b => by simpa [Bool.or_eq_true, decide_eq_true_eq] using le_total a b) arr
  exact @List.eq_of_perm_of_sorted ℝ (· ≤ ·) _ _ _
    ((List.mergeSort_perm arr _).trans hp) (hsorted.imp of_decide_eq_true) hs

theorem quantile_eq_interpAt_sorted (arr a : List ℝ) (q : ℝ) (hp : arr.Perm a)
    (hs : a.Sorted (· ≤ ·)) :
    quantile arr q = interpAt a q := by
  unfold quantile
  rw [mergeSort_eq_of_sorted arr a hp hs]

/-- C1: every `mcSingle` request (any of the three methods) with at least two
returns reports `VaR = -quantile(Rs, 1-confidence)`, the negation of the
empirical quantile of the simulated horizon-day cumulative returns: for any
ascending-sorted rearrangement `a` of the simulated sample, the reported value
is the negated linear interpolation of `a` at the fractional rank
`(n-1)*(1-confidence)`. -/
theorem mcSingle_var_is_neg_empirical_quantile (p : McPayload)
    (gauss tdraw unif : ℕ → ℝ)
    (hm : p.method = "normal" ∨ p.method = "t_mc" ∨ p.method = "bootstrap")
    (hr : 2 ≤ p.r.length) (a : List ℝ)
    (hp : (mcReturns p gauss tdraw unif).Perm a) (hs : a.Sorted (· ≤ ·)) :
    ∃ resp, mcSingle p gauss tdraw unif = some resp ∧
      resp.varValue = some (-(interpAt a (1 - p.conf))) := by
  have hq : quantile (mcReturns p gauss tdraw unif) (1 - p.conf) =
      interpAt a (1 - p.conf) := quantile_eq_interpAt_sorted _ _ _ hp hs
  rcases hm with hm | hm | hm
  · refine ⟨{ ok := true, varValue := some (-(interpAt a (1 - p.conf))),
              mu := some (mean p.r), sigma := some (std p.r) }, ?_, rfl⟩
    rw [mcSingle, if_neg (by omega), if_pos hm, hq]
  · refine ⟨{ ok := true, varValue := some (-(interpAt a (1 - p.conf))),
              mu := some (mean p.r), sigma := some (std p.r),
              nu := some (fitTDfMLE p.r 3 p.dfMax), z := some (zFromConf p.conf) },
            ?_, rfl⟩
    rw [mcSingle, if_neg (by omega), if_neg (by rw [hm]; decide), if_pos hm, hq]
  · refine ⟨{ ok := true, varValue := some (-(interpAt a (1 - p.conf))) }, ?_, rfl⟩
    rw [mcSingle, if_neg (by omega), if_neg (by rw [hm]; decide),
      if_neg (by rw [hm]; decide), if_pos hm, hq]

/-- Witness for C1 at a concrete bootstrap request with one trial. -/
theorem mcSingle_var_is_neg_empirical_quantile_witness :
    ∃ resp,
      mcSingle ⟨[1, 2], 1 / 2, 1, 1, "bootstrap", 60⟩ (fun _ => 0) (fun _ => 0)
          (fun _ => 0) = some resp ∧
        resp.varValue = some (-(interpAt [1] (1 - 1 / 2))) := by
  have hRs : mcReturns ⟨[1, 2], 1 / 2, 1, 1, "bootstrap", 60⟩ (fun _ => 0) (fun _ => 0)
      (fun _ => 0) = [1] := by
    rw [mcReturns, if_neg (by decide), if_neg (by decide)]
    have hidx : jsIdx [1, 2] (jsTrunc 0) = 1 := by
      have ht : jsTrunc 0 = 0 := by
        unfold jsTrunc
        rw [if_pos le_rfl]
        exact Int.floor_zero
      rw [ht]
      unfold jsIdx
      rw [dif_pos ⟨le_refl 0, by norm_num⟩]
      rfl
    simp [List.range_succ, hidx]
  apply mcSingle_var_is_neg_empirical_quantile _ _ _ _ (Or.inr (Or.inr rfl))
    (by norm_num) [1] (by rw [hRs]) (by simp)

/-! ## C7: antisymmetry of the inverse-normal approximation -/

/-- C7 counterexample: at the hardcoded point `c = 0.99` the symmetry
`zFromConf(1-c) = -zFromConf(c)` fails its stated `10⁻⁴` tolerance: the
constant `2.33` differs from the Moro tail value at `0.01`
(`≈ 2.32635`) by more than `5·10⁻⁴`. -/
theorem zFromConf_symmetry_counterexample :
    1e-4 < |zFromConf (1 - 0.99) + zFromConf 0.99| := by
  have h99 : zFromConf 0.99 = 2.33 := by
    unfold zFromConf
    rw [if_neg (by rw [abs_sub_lt_iff]; norm_num), if_pos (by norm_num)]
  have hlog : -Real.log (1 - 0.99) = Real.log 100 := by
    rw [show (1 : ℝ) - 0.99 = (100 : ℝ)⁻¹ by norm_num, Real.log_inv, neg_neg]
  have h01 : zFromConf (1 - 0.99) =
      -(moroTailPoly (Real.log (Real.log 100))) := by
    unfold zFromConf
    rw [if_neg (by rw [abs_sub_lt_iff]; norm_num),
      if_neg (by rw [abs_sub_lt_iff]; norm_num),
      if_neg (by rw [abs_sub_lt_iff]; norm_num), if_pos (by norm_num), hlog]
  have hexp1 : (2.7182818283 : ℝ) ≤ Real.exp 1 := le_of_lt Real.exp_one_gt_d9
  have h100pos : (0 : ℝ) < 100 := by norm_num
  have hlog100_ge : 1 ≤ Real.log 100 := by
    rw [Real.le_log_iff_exp_le h100pos]
    exact le_of_lt (lt_of_lt_of_le Real.exp_one_lt_d9 (by norm_num))
  have hexp4 : (2.7182818283 : ℝ) ^ 4 ≤ Real.exp 4 := by
    have h : Real.exp ((4 : ℕ) * (1 : ℝ)) = Real.exp 1 ^ 4 := Real.exp_nat_mul 1 4
    rw [show (4 : ℝ) = ((4 : ℕ) : ℝ) * (1 : ℝ) by norm_num, h]
    exact pow_le_pow_left₀ (by norm_num) hexp1 4
  have hexpFrac : ∀ b : ℝ, 0 ≤ b →
      (1 + b / 256) ^ (256 : ℕ) ≤ Real.exp b := by
    intro b hb
    have key : Real.exp b = Real.exp (b / 256) ^ (256 : ℕ) := by
      rw [← Real.exp_nat_mul]
      congr 1
      push_cast
      ring
    rw [key]
    apply pow_le_pow_left₀ (by positivity)
    calc 1 + b / 256 = b / 256 + 1 := by ring
      _ ≤ Real.exp (b / 256) := Real.add_one_le_exp _
  have hlog100_le : Real.log 100 ≤ 4.6065 := by
    rw [Real.log_le_iff_le_exp h100pos]
    have hsplit : Real.exp (4.6065 : ℝ) = Real.exp 4 * Real.exp 0.6065 := by
      rw [← Real.exp_add]; norm_num
    have hb : (1 + (0.6065 : ℝ) / 256) ^ (256 : ℕ) ≤ Real.exp 0.6065 :=
      hexpFrac _ (by norm_num)
    have hnum : (100 : ℝ) ≤ (2.7182818283 : ℝ) ^ 4 * (1 + (0.6065 : ℝ) / 256) ^ (256 : ℕ) := by
      norm_num
    calc (100 : ℝ) ≤ (2.7182818283 : ℝ) ^ 4 * (1 + (0.6065 : ℝ) / 256) ^ (256 : ℕ) := hnum
      _ ≤ Real.exp 4 * Real.exp 0.6065 := by
          apply mul_le_mul hexp4 hb (by positivity) (Real.exp_nonneg 4)
      _ = Real.exp (4.6065 : ℝ) := hsplit.symm
  have hr0 : 0 ≤ Real.log (Real.log 100) := Real.log_nonneg hlog100_ge
  have hr1 : Real.log (Real.log 100) ≤ 1.529 := by
    have hlogpos : (0 : ℝ) < Real.log 100 := lt_of_lt_of_le one_pos hlog100_ge
    have hmono : Real.log (Real.log 100) ≤ Real.log 4.6065 :=
      Real.log_le_log hlogpos hlog100_le
    have h46 : Real.log (4.6065 : ℝ) ≤ 1.529 := by
      rw [Real.log_le_iff_le_exp (by norm_num)]
      have hsplit : Real.exp (1.529 : ℝ) = Real.exp 1 * Real.exp 0.529 := by
        rw [← Real.exp_add]; norm_num
      have hb : (1 + (0.529 : ℝ) / 256) ^ (256 : ℕ) ≤ Real.exp 0.529 :=
        hexpFrac _ (by norm_num)
      have hnum : (4.6065 : ℝ) ≤
          (2.7182818283 : ℝ) * (1 + (0.529 : ℝ) / 256) ^ (256 : ℕ) := by
        norm_num
      calc (4.6065 : ℝ) ≤ (2.7182818283 : ℝ) * (1 + (0.529 : ℝ) / 256) ^ (256 : ℕ) := hnum
        _ ≤ Real.exp 1 * Real.exp 0.529 := by
            apply mul_le_mul hexp1 hb (by positivity) (Real.exp_nonneg 1)
        _ = Real.exp (1.529 : ℝ) := hsplit.symm
    linarith
  have hpoly : moroTailPoly (Real.log (Real.log 100)) ≤ 2.3295 := by
    unfold moroTailPoly
    have hb : ∀ i : ℕ, (Real.log (Real.log 100)) ^ i ≤ (1.529 : ℝ) ^ i := fun i =>
      pow_le_pow_left₀ hr0 hr1 i
    have h1 := hb 1
    have h2 := hb 2
    have h3 := hb 3
    have h4 := hb 4
    have h5 := hb 5
    have h6 := hb 6
    have h7 := hb 7
    have h8 := hb 8
    rw [pow_one] at h1
    nlinarith [h1, h2, h3, h4, h5, h6, h7, h8]
  rw [h99, h01]
  have hnonneg : 0 ≤ moroTailPoly (Real.log (Real.log 100)) := by
    unfold moroTailPoly
    have hb : ∀ i : ℕ, 0 ≤ (Real.log (Real.log 100)) ^ i := fun i => pow_nonneg hr0 i
    have h1 := hb 1
    have h2 := hb 2
    have h3 := hb 3
    have h4 := hb 4
    have h5 := hb 5
    have h6 := hb 6
    have h7 := hb 7
    have h8 := hb 8
    rw [pow_one] at h1
    nlinarith [h1, h2, h3, h4, h5, h6, h7, h8]
  rw [abs_of_pos (by linarith)]
  linarith

/-- C7 (amended): `zFromConf(1-c) = -zFromConf(c)` holds **exactly** for every
`c` such that neither `c` nor `1-c` lies within `10⁻⁶` of the hardcoded points
`0.95` and `0.99`; at the excluded points the exact constants `1.645` / `2.33`
break the `10⁻⁴` tolerance (see the counterexample at `c = 0.99`). -/
theorem zFromConf_antisymmetry (c : ℝ) (h1 : ¬ |c - 0.95| < 1e-6)
    (h2 : ¬ |c - 0.99| < 1e-6) (h3 : ¬ |(1 - c) - 0.95| < 1e-6)
    (h4 : ¬ |(1 - c) - 0.99| < 1e-6) :
    zFromConf (1 - c) = -zFromConf c := by
  unfold zFromConf
  rw [if_neg h3, if_neg h4, if_neg h1, if_neg h2]
  have hy : (1 - c) - 0.5 = -(c - 0.5) := by ring
  by_cases hc : |c - 0.5| < 0.42
  · rw [if_pos hc, if_pos (by rw [hy, abs_neg]; exact hc)]
    unfold moroCentral
    ring
  · rw [if_neg hc, if_neg (by rw [hy, abs_neg]; exact hc)]
    by_cases hle : c - 0.5 ≤ 0
    · have hylt : c - 0.5 < 0 := by
        rcases lt_or_eq_of_le hle with h | h
        · exact h
        · exfalso; apply hc; rw [h]; norm_num
      rw [if_neg (by rw [hy]; intro hcon; linarith), if_pos hle,
        show (1 : ℝ) - (1 - c) = c by ring, neg_neg]
    · rw [if_pos (by rw [hy]; linarith [not_le.mp hle]), if_neg hle]

/-- Witness for C7 (amended) at `c = 0.3`. -/
theorem zFromConf_antisymmetry_witness :
    zFromConf (1 - 0.3) = -zFromConf 0.3 :=
  zFromConf_antisymmetry 0.3 (by rw [abs_sub_lt_iff]; norm_num)
    (by rw [abs_sub_lt_iff]; norm_num) (by rw [abs_sub_lt_iff]; norm_num)
    (by rw [abs_sub_lt_iff]; norm_num)

/-! ## C4: the grid-search degrees-of-freedom MLE -/

theorem studentTLoglike_eq (x : List ℝ) (df : ℝ) :
    studentTLoglike x df =
      (x.length : ℝ) * (lgamma ((df + 1) / 2) - lgamma (df / 2) - 0.5 * Real.log (df * π)) -
        (df + 1) / 2 * (x.map (fun v => Real.log (1 + v * v / df))).sum := by
  unfold studentTLoglike
  induction x with
  | nil => simp
  | cons v xs ih =>
      simp only [List.map_cons, List.sum_cons, List.length_cons] at *
      rw [ih]
      push_cast
      ring

theorem bestScan_singleton (L : ℕ → ℝ) (st : ℕ × ℝ) (m : ℕ) :
    bestScan L st [m] = if st.2 < L m then (m, L m) else st := rfl

theorem bestScan_append (L : ℕ → ℝ) (st : ℕ × ℝ) (l1 l2 : List ℕ) :
    bestScan L st (l1 ++ l2) = bestScan L (bestScan L st l1) l2 :=
  List.foldl_append _ _ _ _

/-- The grid scan returns either the untouched initial state (every candidate
`≤` the sentinel) or the first arg max of `L` over the scanned range. -/
theorem bestScan_invariant (L : ℕ → ℝ) (d0 : ℕ) (b0 : ℝ) (s : ℕ) :
    ∀ len : ℕ,
      (bestScan L (d0, b0) (List.range' s len) = (d0, b0) ∧
        ∀ i, s ≤ i → i < s + len → L i ≤ b0) ∨
      (s ≤ (bestScan L (d0, b0) (List.range' s len)).1 ∧
        (bestScan L (d0, b0) (List.range' s len)).1 < s + len ∧
        (bestScan L (d0, b0) (List.range' s len)).2 =
          L (bestScan L (d0, b0) (List.range' s len)).1 ∧
        b0 < (bestScan L (d0, b0) (List.range' s len)).2 ∧
        (∀ i, s ≤ i → i < s + len → L i ≤ (bestScan L (d0, b0) (List.range' s len)).2) ∧
        (∀ i, s ≤ i → i < (bestScan L (d0, b0) (List.range' s len)).1 →
          L i < (bestScan L (d0, b0) (List.range' s len)).2)) := by
  intro len
  induction len with
  | zero =>
      left
      exact ⟨rfl, fun i hi hi2 => absurd (lt_of_le_of_lt hi hi2) (by omega)⟩
  | succ len ih =>
      rw [List.range'_1_concat, bestScan_append]
      rcases ih with ⟨heq, hle⟩ | ⟨hs1, hs2, heval, hgt, hle, hstrict⟩
      · rw [heq, bestScan_singleton]
        by_cases h : b0 < L (s + len)
        · rw [if_pos h]
          right
          refine ⟨by omega, by omega, rfl, h, ?_, ?_⟩
          · intro i hi hi2
            rcases Nat.lt_or_ge i (s + len) with hilt | hige
            · exact le_of_lt (lt_of_le_of_lt (hle i hi hilt) h)
            · have : i = s + len := by omega
              subst this
              exact le_rfl
          · intro i hi hi2
            exact lt_of_le_of_lt (hle i hi (by omega)) h
        · rw [if_neg h]
          left
          refine ⟨rfl, fun i hi hi2 => ?_⟩
          rcases Nat.lt_or_ge i (s + len) with hilt | hige
          · exact hle i hi hilt
          · have : i = s + len := by omega
            subst this
            exact not_lt.mp h
      · rw [bestScan_singleton]
        by_cases h : (bestScan L (d0, b0) (List.range' s len)).2 < L (s + len)
        · rw [if_pos h]
          right
          refine ⟨by omega, by omega, rfl, lt_trans hgt h, ?_, ?_⟩
          · intro i hi hi2
            rcases Nat.lt_or_ge i (s + len) with hilt | hige
            · exact le_of_lt (lt_of_le_of_lt (hle i hi hilt) h)
            · have : i = s + len := by omega
              subst this
              exact le_rfl
          · intro i hi hi2
            exact lt_of_le_of_lt (hle i hi (by omega)) h
        · rw [if_neg h]
          right
          refine ⟨hs1, by omega, heval, hgt, ?_, ?_⟩
          · intro i hi hi2
            rcases Nat.lt_or_ge i (s + len) with hilt | hige
            · exact hle i hi hilt
            · have : i = s + len := by omega
              subst this
              exact not_lt.mp h
          · intro i hi hi2
            exact hstrict i hi hi2

/-- C4 (amended): when `std > 0`, `dfMax ≥ 3` and at least one candidate's
log-likelihood exceeds the `-1e100` sentinel (true for every input the
program can physically represent), `fitTDfMLE` returns the `ν ∈ [3, dfMax]`
maximizing the Student-t log-likelihood
`ℓ(ν) = n·[lgamma((ν+1)/2) − lgamma(ν/2) − ½·ln(νπ)] − (ν+1)/2·Σ ln(1+xᵢ²/ν)`
over the standardized sample, ties broken by the smallest such `ν`; when every
candidate is `≤ -1e100` the scan never updates and `3` is returned regardless
(see the counterexample). -/
theorem fitTDfMLE_first_argmax (r : List ℝ) (dfMax : ℕ) (hσ : 0 < std r)
    (hdf : 3 ≤ dfMax)
    (hsent : ∃ df : ℕ, 3 ≤ df ∧ df ≤ dfMax ∧
      -1e100 < studentTLoglike (r.map (fun v => (v - mean r) / std r)) df) :
    (∀ df : ℝ, studentTLoglike (r.map (fun v => (v - mean r) / std r)) df =
        ((r.map (fun v => (v - mean r) / std r)).length : ℝ) *
          (lgamma ((df + 1) / 2) - lgamma (df / 2) - 0.5 * Real.log (df * π)) -
          (df + 1) / 2 *
            ((r.map (fun v => (v - mean r) / std r)).map
              (fun v => Real.log (1 + v * v / df))).sum) ∧
    3 ≤ fitTDfMLE r 3 dfMax ∧ fitTDfMLE r 3 dfMax ≤ dfMax ∧
    (∀ df : ℕ, 3 ≤ df → df ≤ dfMax →
      studentTLoglike (r.map (fun v => (v - mean r) / std r)) df ≤
        studentTLoglike (r.map (fun v => (v - mean r) / std r)) (fitTDfMLE r 3 dfMax)) ∧
    (∀ df : ℕ, 3 ≤ df → df < fitTDfMLE r 3 dfMax →
      studentTLoglike (r.map (fun v => (v - mean r) / std r)) df <
        studentTLoglike (r.map (fun v => (v - mean r) / std r)) (fitTDfMLE r 3 dfMax)) := by
  have hfit : fitTDfMLE r 3 dfMax =
      (bestScan (fun df => studentTLoglike (r.map (fun v => (v - mean r) / std r)) df)
        ((3, -1e100) : ℕ × ℝ) (List.range' 3 (dfMax + 1 - 3))).1 := by
    rw [fitTDfMLE, if_neg (not_le.mpr hσ)]
  have hinv := bestScan_invariant
    (fun df => studentTLoglike (r.map (fun v => (v - mean r) / std r)) df)
    3 (-1e100) 3 (dfMax + 1 - 3)
  rcases hinv with ⟨heq, hall⟩ | ⟨hs1, hs2, heval, hgt, hle, hstrict⟩
  · obtain ⟨df, h3, hdfle, hlt⟩ := hsent
    exact absurd (hall df h3 (by omega)) (not_le.mpr hlt)
  · refine ⟨fun df => studentTLoglike_eq _ df, ?_, ?_, ?_, ?_⟩
    · rw [hfit]; exact hs1
    · rw [hfit]; omega
    · intro df h3 hdfle
      rw [hfit]
      exact le_of_le_of_eq (hle df h3 (by omega)) heval
    · intro df h3 hlt2
      rw [hfit] at hlt2 ⊢
      exact lt_of_lt_of_eq (hstrict df h3 hlt2) heval

theorem lanczosSum_half_pos : (0 : ℝ) < lanczosSum (1 / 2) := by
  unfold lanczosSum
  norm_num

theorem lanczosSum_one_pos : (0 : ℝ) < lanczosSum 1 := by
  unfold lanczosSum
  norm_num

theorem lanczosSum_three_half_pos : (0 : ℝ) < lanczosSum (3 / 2) := by
  unfold lanczosSum
  norm_num

theorem lgamma_two :
    lgamma 2 = 0.5 * Real.log (2 * π) + 1.5 * Real.log (17 / 2) - 17 / 2 +
      Real.log (lanczosSum 1) := by
  rw [lgamma, if_neg (by norm_num)]
  unfold lgammaMain
  norm_num

theorem lgamma_three_half :
    lgamma (3 / 2) = 0.5 * Real.log (2 * π) + Real.log 8 - 8 +
      Real.log (lanczosSum (1 / 2)) := by
  rw [lgamma, if_neg (by norm_num)]
  unfold lgammaMain
  norm_num

theorem lgamma_five_half :
    lgamma (5 / 2) = 0.5 * Real.log (2 * π) + 2 * Real.log 9 - 9 +
      Real.log (lanczosSum (3 / 2)) := by
  rw [lgamma, if_neg (by norm_num)]
  unfold lgammaMain
  norm_num

theorem lgammaA3_le :
    lgamma 2 - lgamma (3 / 2) - 0.5 * Real.log (3 * π) ≤ -(1 / 2) := by
  rw [lgamma_two, lgamma_three_half]
  have hS1 := lanczosSum_one_pos
  have hS05 := lanczosSum_half_pos
  have hkey : Real.log ((17 / 2 : ℝ) ^ 3 * (lanczosSum 1) ^ 2 /
      (8 ^ 2 * (lanczosSum (1 / 2)) ^ 2)) ≤ Real.log (3 * π) := by
    apply Real.log_le_log (by positivity)
    have h9 : ((17 / 2 : ℝ) ^ 3 * (lanczosSum 1) ^ 2 /
        (8 ^ 2 * (lanczosSum (1 / 2)) ^ 2)) ≤ 9 := by
      rw [div_le_iff (by positivity)]
      unfold lanczosSum
      norm_num
    nlinarith [Real.pi_gt_three]
  rw [Real.log_div (by positivity) (by positivity),
    Real.log_mul (by positivity) (by positivity),
    Real.log_mul (by positivity) (by positivity)] at hkey
  simp only [Real.log_pow] at hkey
  push_cast at hkey
  linarith

theorem lgammaA4_le :
    lgamma (5 / 2) - lgamma 2 - 0.5 * Real.log (4 * π) ≤ -(1 / 2) := by
  rw [lgamma_five_half, lgamma_two]
  have hS1 := lanczosSum_one_pos
  have hS15 := lanczosSum_three_half_pos
  have hkey : Real.log ((9 : ℝ) ^ 4 * (lanczosSum (3 / 2)) ^ 2 /
      ((17 / 2) ^ 3 * (lanczosSum 1) ^ 2)) ≤ Real.log (4 * π) := by
    apply Real.log_le_log (by positivity)
    have h12 : ((9 : ℝ) ^ 4 * (lanczosSum (3 / 2)) ^ 2 /
        ((17 / 2) ^ 3 * (lanczosSum 1) ^ 2)) ≤ 12 := by
      rw [div_le_iff (by positivity)]
      unfold lanczosSum
      norm_num
    nlinarith [Real.pi_gt_three]
  rw [Real.log_div (by positivity) (by positivity),
    Real.log_mul (by positivity) (by positivity),
    Real.log_mul (by positivity) (by positivity)] at hkey
  simp only [Real.log_pow] at hkey
  push_cast at hkey
  linarith

theorem lgammaA43_ge :
    19 / 1000 ≤ (lgamma (5 / 2) - lgamma 2 - 0.5 * Real.log (4 * π)) -
      (lgamma 2 - lgamma (3 / 2) - 0.5 * Real.log (3 * π)) := by
  rw [lgamma_five_half, lgamma_two, lgamma_three_half]
  have hS1 := lanczosSum_one_pos
  have hS05 := lanczosSum_half_pos
  have hS15 := lanczosSum_three_half_pos
  have hpi43 : Real.log (4 * π) = Real.log (3 * π) + Real.log (4 / 3) := by
    rw [← Real.log_mul (by positivity) (by norm_num)]
    congr 1
    ring
  have hXpos : (0 : ℝ) < (9 : ℝ) ^ 4 * 8 ^ 2 * (lanczosSum (3 / 2) * lanczosSum (1 / 2)) ^ 2 /
      ((17 / 2) ^ 6 * (lanczosSum 1) ^ 4 * (4 / 3)) := by positivity
  have hXge : (500 / 481 : ℝ) ≤
      (9 : ℝ) ^ 4 * 8 ^ 2 * (lanczosSum (3 / 2) * lanczosSum (1 / 2)) ^ 2 /
        ((17 / 2) ^ 6 * (lanczosSum 1) ^ 4 * (4 / 3)) := by
    rw [le_div_iff (by positivity)]
    unfold lanczosSum
    norm_num
  have hexp38 : Real.exp (38 / 1000 : ℝ) ≤ 500 / 481 := by
    have h := Real.add_one_le_exp (-(38 / 1000) : ℝ)
    have h2 : Real.exp (38 / 1000 : ℝ) = (Real.exp (-(38 / 1000) : ℝ))⁻¹ := by
      rw [← Real.exp_neg, neg_neg]
    rw [h2]
    calc (Real.exp (-(38 / 1000) : ℝ))⁻¹ ≤ ((481 / 500 : ℝ))⁻¹ :=
          inv_le_inv_of_le (by norm_num) (by linarith)
      _ = 500 / 481 := by norm_num
  have hlogX : (38 / 1000 : ℝ) ≤
      Real.log ((9 : ℝ) ^ 4 * 8 ^ 2 * (lanczosSum (3 / 2) * lanczosSum (1 / 2)) ^ 2 /
        ((17 / 2) ^ 6 * (lanczosSum 1) ^ 4 * (4 / 3))) :=
    (Real.le_log_iff_exp_le hXpos).mpr (le_trans hexp38 hXge)
  rw [Real.log_div (by positivity) (by positivity),
    Real.log_mul (by positivity) (by positivity),
    Real.log_mul (by positivity) (by positivity),
    Real.log_mul (by positivity) (by positivity),
    Real.log_mul (by positivity) (by positivity)] at hlogX
  simp only [Real.log_pow] at hlogX
  rw [Real.log_mul (by positivity) (by positivity)] at hlogX
  push_cast at hlogX
  rw [hpi43]
  linarith

theorem symmetric_sample_mean (N : ℕ) :
    mean ((1 : ℝ) :: (-1) :: List.replicate N 0) = 0 := by
  unfold mean
  rw [List.sum_cons, List.sum_cons, List.sum_replicate]
  simp

theorem symmetric_sample_std (N : ℕ) :
    std ((1 : ℝ) :: (-1) :: List.replicate N 0) = Real.sqrt (2 / ((N : ℝ) + 1)) := by
  unfold std sqDevSum
  rw [symmetric_sample_mean]
  simp only [List.map_cons, List.map_replicate, sub_zero, List.sum_cons, List.sum_replicate,
    List.length_cons, List.length_replicate, smul_zero, mul_zero, add_zero]
  congr 1
  push_cast
  ring_nf

theorem symmetric_sample_loglike (N : ℕ) (df : ℝ) (hdf : 0 < df) :
    studentTLoglike
        (((1 : ℝ) :: (-1) :: List.replicate N 0).map
          (fun v => (v - mean ((1 : ℝ) :: (-1) :: List.replicate N 0)) /
            std ((1 : ℝ) :: (-1) :: List.replicate N 0))) df =
      ((N : ℝ) + 2) * (lgamma ((df + 1) / 2) - lgamma (df / 2) - 0.5 * Real.log (df * π)) -
        (df + 1) * Real.log (1 + ((N : ℝ) + 1) / (2 * df)) := by
  have hσpos : 0 < std ((1 : ℝ) :: (-1) :: List.replicate N 0) := by
    rw [symmetric_sample_std]
    exact Real.sqrt_pos.mpr (by positivity)
  have hσsq : std ((1 : ℝ) :: (-1) :: List.replicate N 0) *
      std ((1 : ℝ) :: (-1) :: List.replicate N 0) = 2 / ((N : ℝ) + 1) := by
    rw [symmetric_sample_std]
    exact Real.mul_self_sqrt (by positivity)
  have hxlist : ((1 : ℝ) :: (-1) :: List.replicate N 0).map
        (fun v => (v - mean ((1 : ℝ) :: (-1) :: List.replicate N 0)) /
          std ((1 : ℝ) :: (-1) :: List.replicate N 0)) =
      (1 / std ((1 : ℝ) :: (-1) :: List.replicate N 0)) ::
        (-(1 / std ((1 : ℝ) :: (-1) :: List.replicate N 0))) :: List.replicate N 0 := by
    simp only [List.map_cons, List.map_replicate, symmetric_sample_mean, sub_zero, zero_div]
    rw [neg_div]
  rw [hxlist]
  unfold studentTLoglike
  simp only [List.map_cons, List.map_replicate, List.sum_cons, List.sum_replicate,
    List.length_cons, List.length_replicate, nsmul_eq_mul]
  have hvv : (1 / std ((1 : ℝ) :: (-1) :: List.replicate N 0)) *
      (1 / std ((1 : ℝ) :: (-1) :: List.replicate N 0)) = ((N : ℝ) + 1) / 2 := by
    rw [div_mul_div_comm, one_mul, hσsq, one_div_div]
  have hvvneg : (-(1 / std ((1 : ℝ) :: (-1) :: List.replicate N 0))) *
      (-(1 / std ((1 : ℝ) :: (-1) :: List.replicate N 0))) = ((N : ℝ) + 1) / 2 := by
    rw [neg_mul_neg, hvv]
  rw [hvv, hvvneg]
  have hzero : (0 : ℝ) * 0 / df = 0 := by
    rw [zero_mul, zero_div]
  rw [hzero, add_zero, Real.log_one, mul_zero, sub_zero]
  have harg : ((N : ℝ) + 1) / 2 / df = ((N : ℝ) + 1) / (2 * df) := div_div _ _ _
  rw [harg]
  push_cast
  ring

theorem exp_240_ge : ((10 : ℝ) ^ 101) ≤ Real.exp 240 := by
  have h : Real.exp ((240 : ℕ) * (1 : ℝ)) = Real.exp 1 ^ 240 := Real.exp_nat_mul 1 240
  rw [show (240 : ℝ) = ((240 : ℕ) : ℝ) * 1 by norm_num, h]
  calc ((10 : ℝ) ^ 101) ≤ (2.7182818283 : ℝ) ^ 240 := by norm_num
    _ ≤ Real.exp 1 ^ 240 :=
        pow_le_pow_left₀ (by norm_num) (le_of_lt Real.exp_one_gt_d9) 240

theorem lgammaA3_lower :
    -(150 : ℝ) ≤ lgamma 2 - lgamma (3 / 2) - 0.5 * Real.log (3 * π) := by
  rw [lgamma_two, lgamma_three_half]
  have h17 : 0 ≤ Real.log (17 / 2 : ℝ) := Real.log_nonneg (by norm_num)
  have h8 : Real.log (8 : ℝ) ≤ 7 :=
    le_trans (Real.log_le_sub_one_of_pos (by norm_num)) (by norm_num)
  have hs1 : 0 ≤ Real.log (lanczosSum 1) := by
    apply Real.log_nonneg
    unfold lanczosSum
    norm_num
  have hs05 : Real.log (lanczosSum (1 / 2)) ≤ 131 := by
    apply le_trans (Real.log_le_sub_one_of_pos lanczosSum_half_pos)
    unfold lanczosSum
    norm_num
  have h3pi : Real.log (3 * π) ≤ 3 * π - 1 := Real.log_le_sub_one_of_pos (by positivity)
  have hpi : π < 3.15 := Real.pi_lt_315
  linarith

/-- C4 counterexample: on the sample `1 :: -1 :: replicate 10¹⁰¹ 0` with
`dfMax = 4`, every candidate log-likelihood lies below the `-1e100` sentinel,
so the grid scan never updates and `fitTDfMLE` returns `3` — yet the
log-likelihood at `ν = 4` is strictly larger than at `ν = 3`, so the returned
value is not the maximizer the claim promises. -/
theorem fitTDfMLE_not_argmax_counterexample :
    fitTDfMLE ((1 : ℝ) :: (-1) :: List.replicate (10 ^ 101) 0) 3 4 = 3 ∧
      studentTLoglike
          (((1 : ℝ) :: (-1) :: List.replicate (10 ^ 101) 0).map
            (fun v => (v - mean ((1 : ℝ) :: (-1) :: List.replicate (10 ^ 101) 0)) /
              std ((1 : ℝ) :: (-1) :: List.replicate (10 ^ 101) 0))) 3 <
        studentTLoglike
          (((1 : ℝ) :: (-1) :: List.replicate (10 ^ 101) 0).map
            (fun v => (v - mean ((1 : ℝ) :: (-1) :: List.replicate (10 ^ 101) 0)) /
              std ((1 : ℝ) :: (-1) :: List.replicate (10 ^ 101) 0))) 4 := by
  have hll3 := symmetric_sample_loglike (10 ^ 101) 3 (by norm_num)
  have hll4 := symmetric_sample_loglike (10 ^ 101) 4 (by norm_num)
  rw [show ((3 : ℝ) + 1) / 2 = 2 by norm_num, show (2 : ℝ) * 3 = 6 by norm_num,
    show (((10 ^ 101 : ℕ) : ℝ)) = (10 : ℝ) ^ 101 by norm_num] at hll3
  rw [show ((4 : ℝ) + 1) / 2 = 5 / 2 by norm_num, show (4 : ℝ) / 2 = 2 by norm_num,
    show (2 : ℝ) * 4 = 8 by norm_num,
    show (((10 ^ 101 : ℕ) : ℝ)) = (10 : ℝ) ^ 101 by norm_num] at hll4
  have hL6 : 0 ≤ Real.log (1 + ((10 : ℝ) ^ 101 + 1) / 6) := by
    apply Real.log_nonneg
    have h0 : (0 : ℝ) ≤ ((10 : ℝ) ^ 101 + 1) / 6 := by positivity
    linarith
  have hL8 : 0 ≤ Real.log (1 + ((10 : ℝ) ^ 101 + 1) / 8) := by
    apply Real.log_nonneg
    have h0 : (0 : ℝ) ≤ ((10 : ℝ) ^ 101 + 1) / 8 := by positivity
    linarith
  have hL8le : Real.log (1 + ((10 : ℝ) ^ 101 + 1) / 8) ≤ 240 := by
    rw [Real.log_le_iff_le_exp (by positivity)]
    calc 1 + ((10 : ℝ) ^ 101 + 1) / 8 ≤ (10 : ℝ) ^ 101 := by norm_num
      _ ≤ Real.exp 240 := exp_240_ge
  have hmul3 : ((10 : ℝ) ^ 101 + 2) * (lgamma 2 - lgamma (3 / 2) - 0.5 * Real.log (3 * π)) ≤
      ((10 : ℝ) ^ 101 + 2) * (-(1 / 2)) :=
    mul_le_mul_of_nonneg_left lgammaA3_le (by positivity)
  have hmul4 : ((10 : ℝ) ^ 101 + 2) * (lgamma (5 / 2) - lgamma 2 - 0.5 * Real.log (4 * π)) ≤
      ((10 : ℝ) ^ 101 + 2) * (-(1 / 2)) :=
    mul_le_mul_of_nonneg_left lgammaA4_le (by positivity)
  have hnum : ((10 : ℝ) ^ 101 + 2) * (-(1 / 2)) ≤ -1e100 := by norm_num
  have hll3le : studentTLoglike
      (((1 : ℝ) :: (-1) :: List.replicate (10 ^ 101) 0).map
        (fun v => (v - mean ((1 : ℝ) :: (-1) :: List.replicate (10 ^ 101) 0)) /
          std ((1 : ℝ) :: (-1) :: List.replicate (10 ^ 101) 0))) 3 ≤ -1e100 := by
    rw [hll3]
    linarith
  have hll4le : studentTLoglike
      (((1 : ℝ) :: (-1) :: List.replicate (10 ^ 101) 0).map
        (fun v => (v - mean ((1 : ℝ) :: (-1) :: List.replicate (10 ^ 101) 0)) /
          std ((1 : ℝ) :: (-1) :: List.replicate (10 ^ 101) 0))) 4 ≤ -1e100 := by
    rw [hll4]
    linarith
  have hc3 : studentTLoglike
      (((1 : ℝ) :: (-1) :: List.replicate (10 ^ 101) 0).map
        (fun v => (v - mean ((1 : ℝ) :: (-1) :: List.replicate (10 ^ 101) 0)) /
          std ((1 : ℝ) :: (-1) :: List.replicate (10 ^ 101) 0))) ((3 : ℕ) : ℝ) ≤ -1e100 := by
    rw [show ((3 : ℕ) : ℝ) = (3 : ℝ) by norm_num]
    exact hll3le
  have hc4 : studentTLoglike
      (((1 : ℝ) :: (-1) :: List.replicate (10 ^ 101) 0).map
        (fun v => (v - mean ((1 : ℝ) :: (-1) :: List.replicate (10 ^ 101) 0)) /
          std ((1 : ℝ) :: (-1) :: List.replicate (10 ^ 101) 0))) ((4 : ℕ) : ℝ) ≤ -1e100 := by
    rw [show ((4 : ℕ) : ℝ) = (4 : ℝ) by norm_num]
    exact hll4le
  constructor
  · have hσpos : 0 < std ((1 : ℝ) :: (-1) :: List.replicate (10 ^ 101) 0) := by
      rw [symmetric_sample_std]
      exact Real.sqrt_pos.mpr (by positivity)
    rw [fitTDfMLE, if_neg (not_le.mpr hσpos), show (4 + 1 - 3 : ℕ) = 2 from rfl]
    rcases bestScan_invariant
        (fun df => studentTLoglike
          (((1 : ℝ) :: (-1) :: List.replicate (10 ^ 101) 0).map
            (fun v => (v - mean ((1 : ℝ) :: (-1) :: List.replicate (10 ^ 101) 0)) /
              std ((1 : ℝ) :: (-1) :: List.replicate (10 ^ 101) 0))) df)
        3 (-1e100) 3 2 with ⟨heq, _⟩ | ⟨hs1, hs2, heval, hgt, _, _⟩
    · rw [heq]
    · exfalso
      have hcase : (bestScan
          (fun df => studentTLoglike
            (((1 : ℝ) :: (-1) :: List.replicate (10 ^ 101) 0).map
              (fun v => (v - mean ((1 : ℝ) :: (-1) :: List.replicate (10 ^ 101) 0)) /
                std ((1 : ℝ) :: (-1) :: List.replicate (10 ^ 101) 0))) df)
          ((3, -1e100) : ℕ × ℝ) (List.range' 3 2)).1 = 3 ∨
        (bestScan
          (fun df => studentTLoglike
            (((1 : ℝ) :: (-1) :: List.replicate (10 ^ 101) 0).map
              (fun v => (v - mean ((1 : ℝ) :: (-1) :: List.replicate (10 ^ 101) 0)) /
                std ((1 : ℝ) :: (-1) :: List.replicate (10 ^ 101) 0))) df)
          ((3, -1e100) : ℕ × ℝ) (List.range' 3 2)).1 = 4 := by omega
      rcases hcase with h | h
      · rw [h] at heval
        rw [heval] at hgt
        exact absurd hgt (not_lt.mpr hc3)
      · rw [h] at heval
        rw [heval] at hgt
        exact absurd hgt (not_lt.mpr hc4)
  · rw [hll3, hll4]
    have hDmul : ((10 : ℝ) ^ 101 + 2) * (19 / 1000) ≤
        ((10 : ℝ) ^ 101 + 2) *
          ((lgamma (5 / 2) - lgamma 2 - 0.5 * Real.log (4 * π)) -
            (lgamma 2 - lgamma (3 / 2) - 0.5 * Real.log (3 * π))) :=
      mul_le_mul_of_nonneg_left lgammaA43_ge (by positivity)
    have hbig : (1201 : ℝ) ≤ ((10 : ℝ) ^ 101 + 2) * (19 / 1000) := by norm_num
    nlinarith [hL6, hL8le, hDmul, hbig]

/-- Witness for C4 (amended) on the sample `[1, -1]` with `dfMax = 3`. -/
theorem fitTDfMLE_first_argmax_witness :
    0 < std ((1 : ℝ) :: (-1) :: List.replicate 0 0) ∧
      3 ≤ fitTDfMLE ((1 : ℝ) :: (-1) :: List.replicate 0 0) 3 3 ∧
      fitTDfMLE ((1 : ℝ) :: (-1) :: List.replicate 0 0) 3 3 ≤ 3 := by
  have hσ : 0 < std ((1 : ℝ) :: (-1) :: List.replicate 0 0) := by
    rw [symmetric_sample_std]
    exact Real.sqrt_pos.mpr (by norm_num)
  have hll := symmetric_sample_loglike 0 3 (by norm_num)
  rw [show ((3 : ℝ) + 1) / 2 = 2 by norm_num, show (2 : ℝ) * 3 = 6 by norm_num,
    show (((0 : ℕ) : ℝ)) = (0 : ℝ) by norm_num] at hll
  have hlog76 : Real.log (1 + ((0 : ℝ) + 1) / 6) ≤ 1 / 6 := by
    apply le_trans (Real.log_le_sub_one_of_pos (by norm_num))
    norm_num
  have hA3 := lgammaA3_lower
  have hmain := fitTDfMLE_first_argmax ((1 : ℝ) :: (-1) :: List.replicate 0 0) 3 hσ le_rfl
    ⟨3, le_rfl, le_rfl, by
      rw [show (((3 : ℕ)) : ℝ) = (3 : ℝ) by norm_num, hll]
      linarith [hA3, hlog76]⟩
  exact ⟨hσ, hmain.2.1, hmain.2.2.1⟩

end

end VarCalc
